import Mathlib

/-!
Shallow embedding of the atomberg_sov analysis pipeline
(repository `varun09120912/atomberg_assignment`).

Python floats are modelled as exact rationals; Python `round(x, d)`
(round-half-to-even on the numeric value) is modelled by `roundTo` below.
Python dicts (which preserve insertion order) are modelled as association
lists `List (String × _)`; Python strings as Lean `String`.
-/

namespace Atomberg

/-- Round a rational to the nearest integer, ties to even
(the semantics of Python's builtin `round` on exact values). -/
def rndInt (q : ℚ) : ℤ :=
  let f := ⌊q⌋
  let r := q - f
  if r < 1 / 2 then f
  else if 1 / 2 < r then f + 1
  else if f % 2 = 0 then f else f + 1

/-- Python `round(q, d)` on exact rationals. -/
def roundTo (d : ℕ) (q : ℚ) : ℚ := (rndInt (q * 10 ^ d) : ℚ) / 10 ^ d

/-- Python `round(q, 2)`. -/
def round2 (q : ℚ) : ℚ := roundTo 2 q

/-- Python `round(q, 3)`. -/
def round3 (q : ℚ) : ℚ := roundTo 3 q

/-- Tests that the first list starts the second
(used to build Python's substring test `needle in hay`). -/
def leadsWith : List Char → List Char → Bool
  | [], _ => true
  | _ :: _, [] => false
  | a :: as, b :: bs => a = b && leadsWith as bs

/-- Python's `needle in hay` on character lists. -/
def containsSub (needle : List Char) : List Char → Bool
  | [] => leadsWith needle []
  | c :: t => leadsWith needle (c :: t) || containsSub needle t

/-- Python `needle in hay` on strings. -/
def inStr (needle hay : String) : Bool := containsSub needle.toList hay.toList

/-- Python `s.lower()` (character-wise). -/
def lowerStr (s : String) : String := String.mk (s.toList.map Char.toLower)

/-- The whitespace characters recognised by Python's `str.split()`. -/
def isSpace (c : Char) : Bool :=
  c = ' ' || c = '\t' || c = '\n' || c = '\r' || c.toNat = 11 || c.toNat = 12

/-- Worker for `str.split()`: `cur` holds the current token reversed. -/
def splitWSAux : List Char → List Char → List (List Char)
  | cur, [] => if cur = [] then [] else [cur.reverse]
  | cur, c :: t =>
    if isSpace c then
      if cur = [] then splitWSAux [] t else cur.reverse :: splitWSAux [] t
    else splitWSAux (c :: cur) t

/-- Python `s.split()` with no arguments: split on whitespace runs,
dropping empty tokens. -/
def pySplit (s : String) : List (List Char) := splitWSAux [] s.toList

/-- Source set `positive_words` of `SentimentAnalyzer._simple_sentiment`. -/
def positive_words : List String :=
  ["good", "great", "excellent", "amazing", "awesome", "love", "best",
   "wonderful", "fantastic", "perfect", "nice", "smart", "innovative",
   "efficient", "powerful", "reliable", "quality", "impressive", "outstanding",
   "superior", "elegant", "modern", "advanced", "affordable", "best value"]

/-- Source set `negative_words` of `SentimentAnalyzer._simple_sentiment`
(the source set literal lists "disappointing" twice; a set holds it once). -/
def negative_words : List String :=
  ["bad", "poor", "terrible", "awful", "hate", "worst", "horrible",
   "disappointing", "useless", "broken", "cheap", "slow", "unreliable",
   "weak", "issue", "problem", "defect", "inferior"]

/-- Number of tokens containing some member of `ws` as a substring. -/
def countHits (ws : List String) (tokens : List (List Char)) : ℕ :=
  (tokens.filter (fun w => ws.any (fun p => containsSub p.toList w))).length

/-- Embeds `SentimentAnalyzer._simple_sentiment`: keyword-matching fallback.
Returns `(polarity, subjectivity)` as exact rationals. -/
def simple_sentiment (text : String) : ℚ × ℚ :=
  let words := pySplit (lowerStr text)
  let pos_count := countHits positive_words words
  let neg_count := countHits negative_words words
  let total := pos_count + neg_count
  if total = 0 then (0, 3 / 10)
  else
    let polarity : ℚ := ((pos_count : ℚ) - (neg_count : ℚ)) / (total : ℚ)
    let subjectivity : ℚ :=
      if words ≠ [] then min 1 ((total : ℚ) / (words.length : ℚ)) else 0
    (min 1 (max (-1) polarity), min 1 subjectivity)

structure SentimentResult where
  polarity : ℚ
  subjectivity : ℚ
  sentiment : String
  deriving Repr, DecidableEq

/-- Embeds `SentimentAnalyzer.analyze_sentiment` in fallback mode
(`use_textblob = False`); `not text` on a string is `text = ""`. -/
def analyze_sentiment (text : String) : SentimentResult :=
  if text = "" then ⟨0, 0, "neutral"⟩
  else
    let ps := simple_sentiment text
    let sentiment :=
      if ps.1 > 1 / 10 then "positive"
      else if ps.1 < -(1 / 10) then "negative"
      else "neutral"
    ⟨round3 ps.1, round3 ps.2, sentiment⟩

/-- A content item (search result / social post): the dictionary fields the
analysis pipeline reads, each defaulting like `item.get(field, default)`. -/
structure Item where
  title : String := ""
  snippet : String := ""
  url : String := ""
  likes : ℕ := 0
  comments : ℕ := 0
  shares : ℕ := 0
  views : ℕ := 0
  sentiment : Option String := none
  deriving Repr, DecidableEq

/-- Worker for `DataProcessor.deduplicate_results`: `seen` is the set of
keys already kept; `if key and key not in seen` keeps an item. -/
def dedupAux (seen : List String) : List Item → List Item
  | [] => []
  | r :: rest =>
    if r.url ≠ "" ∧ r.url ∉ seen then r :: dedupAux (r.url :: seen) rest
    else dedupAux seen rest

/-- Embeds `DataProcessor.deduplicate_results` with the default `key_field = "url"`. -/
def deduplicate_results (results : List Item) : List Item := dedupAux [] results

/-- A SoV distribution: the `{"atomberg": float, "competitors": {...}}`
dictionaries produced by `SoVAnalyzer`. -/
structure SoVDist where
  atomberg : ℚ
  competitors : List (String × ℚ)
  deriving Repr, DecidableEq

/-- Python `d.get(k, 0)` on a competitor dictionary. -/
def lookupQ (l : List (String × ℚ)) (k : String) : ℚ :=
  match l.find? (fun p => p.1 = k) with
  | some p => p.2
  | none => 0

/-- Embeds `SoVAnalyzer.calculate_mention_based_sov`. -/
def calculate_mention_based_sov (atomberg_mentions : ℕ)
    (competitor_mentions : List (String × ℕ)) : SoVDist :=
  let total_mentions := atomberg_mentions + (competitor_mentions.map (fun p => p.2)).sum
  if total_mentions = 0 then ⟨0, []⟩
  else
    ⟨round2 ((atomberg_mentions : ℚ) / (total_mentions : ℚ) * 100),
     competitor_mentions.map
       (fun p => (p.1, round2 ((p.2 : ℚ) / (total_mentions : ℚ) * 100)))⟩

/-- Embeds `SoVAnalyzer.calculate_engagement_based_sov`. -/
def calculate_engagement_based_sov (atomberg_engagement : ℚ)
    (competitor_engagement : List (String × ℚ)) : SoVDist :=
  let total_engagement := atomberg_engagement + (competitor_engagement.map (fun p => p.2)).sum
  if total_engagement = 0 then ⟨0, []⟩
  else
    ⟨round2 (atomberg_engagement / total_engagement * 100),
     competitor_engagement.map
       (fun p => (p.1, round2 (p.2 / total_engagement * 100)))⟩

/-- The two dictionaries returned by `SoVAnalyzer.calculate_positive_voice_sov`. -/
structure PositiveVoice where
  positive_voice_percentage : SoVDist
  share_of_positive_voice : SoVDist
  deriving Repr, DecidableEq

/-- Embeds `SoVAnalyzer.calculate_positive_voice_sov`; `competitor_data` maps each
competitor to its `(positive_count, total_count)` pair. -/
def calculate_positive_voice_sov (atomberg_positive_count atomberg_total_count : ℕ)
    (competitor_data : List (String × ℕ × ℕ)) : PositiveVoice :=
  let atomberg_pov : ℚ :=
    if atomberg_total_count > 0 then
      (atomberg_positive_count : ℚ) / (atomberg_total_count : ℚ) * 100
    else 0
  let competitor_pov : List (String × ℚ) :=
    competitor_data.map (fun p =>
      (p.1, if p.2.2 > 0 then (p.2.1 : ℚ) / (p.2.2 : ℚ) * 100 else 0))
  let total_positive := atomberg_positive_count + (competitor_data.map (fun p => p.2.1)).sum
  let total_mentions := atomberg_total_count + (competitor_data.map (fun p => p.2.2)).sum
  let positive_sov : SoVDist :=
    if total_mentions = 0 then ⟨0, []⟩
    else
      ⟨round2 (if total_positive > 0 then
          (atomberg_positive_count : ℚ) / (total_positive : ℚ) * 100 else 0),
       competitor_data.map (fun p =>
         (p.1, round2 (if total_positive > 0 then
            (p.2.1 : ℚ) / (total_positive : ℚ) * 100 else 0)))⟩
  ⟨⟨round2 atomberg_pov, competitor_pov.map (fun p => (p.1, round2 p.2))⟩,
   positive_sov⟩

/-- The weight dictionary passed to `calculate_composite_sov`. -/
structure Weights where
  mention : ℚ
  engagement : ℚ
  positive : ℚ
  deriving Repr, DecidableEq

/-- The default weights of `calculate_composite_sov`. -/
def defaultWeights : Weights := ⟨2 / 5, 2 / 5, 1 / 5⟩

/-- The `# Ensure weights sum to 1` step of `calculate_composite_sov`. -/
def resolveWeights (w : Weights) : Weights :=
  let total_weight := w.mention + w.engagement + w.positive
  if total_weight ≠ 1 then
    ⟨w.mention / total_weight, w.engagement / total_weight, w.positive / total_weight⟩
  else w

/-- Keep the first occurrence of each key (Python set/dict key semantics,
with a deterministic order standing in for set iteration order). -/
def dedupKeys : List String → List String
  | [] => []
  | k :: t => k :: dedupKeys (t.filter (fun x => x ≠ k))
termination_by l => l.length
decreasing_by
  simp only [List.length_cons]
  exact Nat.lt_succ_of_le (List.length_filter_le _ _)

/-- The body of `calculate_composite_sov` after weight resolution.
`all_competitors` is the union of the mention and engagement competitor
keys; the source iterates a Python `set`, whose order is unspecified, so a
deterministic first-occurrence order is chosen here. -/
def compositeCore (mention_sov engagement_sov : SoVDist)
    (positive_sov : PositiveVoice) (w : Weights) : SoVDist :=
  let atomberg_composite :=
    mention_sov.atomberg * w.mention +
    engagement_sov.atomberg * w.engagement +
    positive_sov.share_of_positive_voice.atomberg * w.positive
  let all_competitors :=
    dedupKeys (mention_sov.competitors.map (fun p => p.1) ++
               engagement_sov.competitors.map (fun p => p.1))
  ⟨round2 atomberg_composite,
   all_competitors.map (fun brand =>
     (brand, round2 (
        lookupQ mention_sov.competitors brand * w.mention +
        lookupQ engagement_sov.competitors brand * w.engagement +
        lookupQ positive_sov.share_of_positive_voice.competitors brand * w.positive)))⟩

/-- Embeds `SoVAnalyzer.calculate_composite_sov`; `weights = none` is Python's
`weights=None`, replaced by the defaults. -/
def calculate_composite_sov (mention_sov engagement_sov : SoVDist)
    (positive_sov : PositiveVoice) (weights : Option Weights) : SoVDist :=
  compositeCore mention_sov engagement_sov positive_sov
    (resolveWeights (weights.getD defaultWeights))

/-- Stable insertion step for a descending sort by score
(matches Python's stable `list.sort(key=score, reverse=True)`). -/
def insertDesc (x : String × ℚ) : List (String × ℚ) → List (String × ℚ)
  | [] => [x]
  | y :: t => if y.2 > x.2 then y :: insertDesc x t else x :: y :: t

/-- Stable descending sort by score. -/
def sortDesc (l : List (String × ℚ)) : List (String × ℚ) := l.foldr insertDesc []

/-- The summary dictionary built by `SoVAnalyzer.generate_sov_summary`. -/
structure SoVSummary where
  atomberg_sov : ℚ
  rank : ℕ
  total_brands : ℕ
  top_competitor : Option (String × ℚ)
  competitor_rankings : List (String × ℚ)
  performance_gap : ℚ
  deriving Repr, DecidableEq

/-- Embeds `SoVAnalyzer.generate_sov_summary`. -/
def generate_sov_summary (composite_sov : SoVDist) : SoVSummary :=
  let atomberg_score := composite_sov.atomberg
  let competitor_scores := sortDesc composite_sov.competitors
  let rank := competitor_scores.foldl
    (fun r p => if p.2 > atomberg_score then r + 1 else r) 1
  let total_brands := competitor_scores.length + 1
  ⟨atomberg_score, rank, total_brands,
   competitor_scores.head?,
   competitor_scores,
   match competitor_scores.head? with
   | some top => round2 (atomberg_score - top.2)
   | none => 0⟩

/-- The haystack built per item by `SoVAnalysisAgent._analyze_brands`:
`(result.get("title", "") + " " + result.get("snippet", "")).lower()`. -/
def itemText (r : Item) : String := lowerStr (r.title ++ " " ++ r.snippet)

/-- The inner `for keyword in keywords` loop of `_analyze_brands`: scan the
variants in declared order, stopping (`break`) at the first match. -/
def brandHit (text : String) : List String → Bool
  | [] => false
  | k :: t => if inStr (lowerStr k) text then true else brandHit text t

/-- Increment one brand's count and append the matched item
(the dictionary updates inside `_analyze_brands`). -/
def bumpBrand (m : List (String × ℕ × List Item)) (brand : String) (r : Item) :
    List (String × ℕ × List Item) :=
  m.map (fun q => if q.1 = brand then (q.1, q.2.1 + 1, q.2.2 ++ [r]) else q)

/-- The `for brand, keywords in brand_keywords.items()` loop of
`_analyze_brands`, run for one item. -/
def brandStep (bk : List (String × List String)) (m : List (String × ℕ × List Item))
    (r : Item) : List (String × ℕ × List Item) :=
  bk.foldl (fun m2 p => if brandHit (itemText r) p.2 then bumpBrand m2 p.1 r else m2) m

/-- The dictionary returned by `SoVAnalysisAgent._analyze_brands`
(`brand_results` reduced to per-brand lengths, as in the source's return). -/
structure BrandAnalysis where
  mentions : List (String × ℕ)
  total_results : ℕ
  brand_results : List (String × ℕ)
  deriving Repr, DecidableEq

/-- Embeds `SoVAnalysisAgent._analyze_brands` with an explicit brand-keyword
mapping (the `None` default is a caller concern). -/
def analyze_brands (results : List Item) (bk : List (String × List String)) :
    BrandAnalysis :=
  let final := results.foldl (brandStep bk) (bk.map (fun p => (p.1, 0, ([] : List Item))))
  ⟨final.map (fun q => (q.1, q.2.1)), results.length,
   final.map (fun q => (q.1, q.2.2.length))⟩

/-- The label used for one item by `_analyze_sentiments`, paired with the
polarity contribution added to `total_polarity` (0 when the item carries a
precomputed `sentiment` field, since that branch skips the accumulator). -/
def sentLabelAndPolarity (item : Item) : String × ℚ :=
  match item.sentiment with
  | some s => (s, 0)
  | none =>
    let o := analyze_sentiment (item.title ++ " " ++ item.snippet)
    (o.sentiment, o.polarity)

/-- The dictionary returned by `SoVAnalysisAgent._analyze_sentiments`. -/
structure SentimentSummary where
  total_items : ℕ
  positive_count : ℕ
  negative_count : ℕ
  neutral_count : ℕ
  positive_percentage : ℚ
  negative_percentage : ℚ
  neutral_percentage : ℚ
  avg_polarity : ℚ
  deriving Repr, DecidableEq

/-- Embeds `SoVAnalysisAgent._analyze_sentiments`. -/
def analyze_sentiments (results : List Item) : SentimentSummary :=
  let acc := results.foldl
    (fun (a : ℕ × ℕ × ℕ × ℚ) item =>
      let lp := sentLabelAndPolarity item
      let tp := a.2.2.2 + lp.2
      if lp.1 = "positive" then (a.1 + 1, a.2.1, a.2.2.1, tp)
      else if lp.1 = "negative" then (a.1, a.2.1 + 1, a.2.2.1, tp)
      else (a.1, a.2.1, a.2.2.1 + 1, tp))
    (0, 0, 0, 0)
  let total := results.length
  ⟨total, acc.1, acc.2.1, acc.2.2.1,
   round2 (if total > 0 then (acc.1 : ℚ) / (total : ℚ) * 100 else 0),
   round2 (if total > 0 then (acc.2.1 : ℚ) / (total : ℚ) * 100 else 0),
   round2 (if total > 0 then (acc.2.2.1 : ℚ) / (total : ℚ) * 100 else 0),
   round3 (if total > 0 then acc.2.2.2 / (total : ℚ) else 0)⟩

/-- The dictionary returned by `SoVAnalysisAgent._analyze_engagement`. -/
structure EngagementSummary where
  total_items : ℕ
  total_likes : ℕ
  total_comments : ℕ
  total_shares : ℕ
  total_views : ℕ
  total_engagement : ℕ
  avg_likes_per_item : ℚ
  avg_engagement_per_item : ℚ
  deriving Repr, DecidableEq

/-- Embeds `SoVAnalysisAgent._analyze_engagement`. -/
def analyze_engagement (results : List Item) : EngagementSummary :=
  let total_likes := (results.map (fun i => i.likes)).sum
  let total_comments := (results.map (fun i => i.comments)).sum
  let total_shares := (results.map (fun i => i.shares)).sum
  let total_views := (results.map (fun i => i.views)).sum
  let total_engagement := total_likes + total_comments + total_shares
  ⟨results.length, total_likes, total_comments, total_shares, total_views,
   total_engagement,
   round2 (if results ≠ [] then (total_likes : ℚ) / (results.length : ℚ) else 0),
   round2 (if results ≠ [] then (total_engagement : ℚ) / (results.length : ℚ) else 0)⟩

/-- Python `mentions.get("atomberg", 0)`-style lookup on a count dictionary. -/
def lookupN (l : List (String × ℕ)) (k : String) : Option ℕ :=
  (l.find? (fun p => p.1 = k)).map (fun p => p.2)

/-- The dictionary returned by `SoVAnalysisAgent._calculate_sov`. -/
structure SovAnalysis where
  mention_based : SoVDist
  engagement_based : SoVDist
  positive_voice : PositiveVoice
  composite_sov : SoVDist
  summary : SoVSummary
  deriving Repr, DecidableEq

/-- Embeds `SoVAnalysisAgent._calculate_sov`: note the hardcoded competitor
engagement (`{brand: 100}`) and competitor sentiment data (`{brand: (25, 100)}`)
taken verbatim from the source. -/
def calculate_sov (brand_analysis : BrandAnalysis) (sentiment : SentimentSummary)
    (engagement : EngagementSummary) : SovAnalysis :=
  let mentions := brand_analysis.mentions
  let atomberg_mentions := (lookupN mentions "atomberg").getD 0
  let competitor_mentions := mentions.filter (fun p => p.1 ≠ "atomberg")
  let mention_sov := calculate_mention_based_sov atomberg_mentions competitor_mentions
  let atomberg_engagement : ℚ := engagement.total_engagement
  let competitor_engagement := competitor_mentions.map (fun p => (p.1, (100 : ℚ)))
  let engagement_sov := calculate_engagement_based_sov atomberg_engagement competitor_engagement
  let positive_sov := calculate_positive_voice_sov sentiment.positive_count
    sentiment.total_items (competitor_mentions.map (fun p => (p.1, (25, 100))))
  let composite_sov := calculate_composite_sov mention_sov engagement_sov positive_sov none
  ⟨mention_sov, engagement_sov, positive_sov, composite_sov,
   generate_sov_summary composite_sov⟩

/-- One keyword's analysis record (the fields of `analyze_keyword`'s result
that carry computation; fetch, timestamp and raw echoes excluded). -/
structure KeywordAnalysis where
  raw_results_count : ℕ
  brand_analysis : BrandAnalysis
  sentiment_analysis : SentimentSummary
  engagement_analysis : EngagementSummary
  sov_analysis : SovAnalysis
  deriving Repr, DecidableEq

/-- Embeds `SoVAnalysisAgent.analyze_keyword` after the external fetch: dedupe,
then the three analysis stages, then SoV calculation. -/
def analyze_items (items : List Item) (bk : List (String × List String)) :
    KeywordAnalysis :=
  let results := deduplicate_results items
  let b := analyze_brands results bk
  let s := analyze_sentiments results
  let e := analyze_engagement results
  ⟨results.length, b, s, e, calculate_sov b s e⟩

/-- Sum of all percentages in a SoV distribution (primary plus competitors). -/
def sovSum (d : SoVDist) : ℚ := d.atomberg + (d.competitors.map (fun p => p.2)).sum

theorem abs_rndInt_sub (q : ℚ) : |(rndInt q : ℚ) - q| ≤ 1 / 2 := by
  have h0 : (⌊q⌋ : ℚ) ≤ q := Int.floor_le q
  have h1 : q < ⌊q⌋ + 1 := Int.lt_floor_add_one q
  simp only [rndInt]
  split_ifs with ha hb hc
  · rw [abs_le]; constructor <;> linarith
  · push_cast; rw [abs_le]; constructor <;> linarith
  · rw [abs_le]; constructor <;> linarith
  · push_cast; rw [abs_le]; constructor <;> linarith

theorem abs_round2_sub (q : ℚ) : |round2 q - q| ≤ 1 / 200 := by
  have h := abs_rndInt_sub (q * 10 ^ 2)
  have e : round2 q - q = ((rndInt (q * 10 ^ 2) : ℚ) - q * 10 ^ 2) / 10 ^ 2 := by
    simp only [round2, roundTo]; ring
  rw [e, abs_div]
  have e2 : |((10 : ℚ) ^ 2)| = 100 := by norm_num
  rw [e2]
  linarith

theorem rndInt_low {q : ℚ} {f : ℤ} (h1 : (f : ℚ) ≤ q) (h2 : q - f < 1 / 2) :
    rndInt q = f := by
  have hfl : ⌊q⌋ = f := Int.floor_eq_iff.mpr ⟨h1, by linarith⟩
  simp only [rndInt, hfl]
  rw [if_pos h2]

theorem rndInt_high {q : ℚ} {f : ℤ} (h2 : 1 / 2 < q - f) (h3 : q < f + 1) :
    rndInt q = f + 1 := by
  have h1 : (f : ℚ) ≤ q := by linarith
  have hfl : ⌊q⌋ = f := Int.floor_eq_iff.mpr ⟨h1, by linarith⟩
  simp only [rndInt, hfl]
  rw [if_neg (by linarith), if_pos h2]

theorem roundTo_low (d : ℕ) (q : ℚ) (f : ℤ) (h1 : (f : ℚ) ≤ q * 10 ^ d)
    (h2 : q * 10 ^ d - f < 1 / 2) : roundTo d q = (f : ℚ) / 10 ^ d := by
  unfold roundTo
  rw [rndInt_low h1 h2]

theorem roundTo_high (d : ℕ) (q : ℚ) (f : ℤ) (h2 : 1 / 2 < q * 10 ^ d - f)
    (h3 : q * 10 ^ d < f + 1) : roundTo d q = ((f : ℚ) + 1) / 10 ^ d := by
  unfold roundTo
  rw [rndInt_high h2 h3]
  push_cast
  ring

/-- Catalogue of the branch taken by `calculate_mention_based_sov` when the
total is nonzero. -/
theorem mention_sov_eval (a : ℕ) (cs : List (String × ℕ))
    (h : a + (cs.map (fun p => p.2)).sum ≠ 0) :
    calculate_mention_based_sov a cs
      = ⟨round2 ((a : ℚ) / ((a + (cs.map (fun p => p.2)).sum : ℕ) : ℚ) * 100),
         cs.map (fun p =>
           (p.1, round2 ((p.2 : ℚ) / ((a + (cs.map (fun q => q.2)).sum : ℕ) : ℚ) * 100)))⟩ := by
  simp only [calculate_mention_based_sov]
  rw [if_neg h]

theorem sum_map_mul_const (vs : List ℚ) (c : ℚ) :
    (vs.map (fun v => v * c)).sum = vs.sum * c := by
  induction vs with
  | nil => simp
  | cons x t ih => simp only [List.map_cons, List.sum_cons, ih]; ring

theorem list_sum_sub_le {α : Type} (l : List α) (f g : α → ℚ) (ε : ℚ)
    (h : ∀ x ∈ l, |f x - g x| ≤ ε) :
    |(l.map f).sum - (l.map g).sum| ≤ l.length * ε := by
  induction l with
  | nil => simp
  | cons x t ih =>
    simp only [List.map_cons, List.sum_cons, List.length_cons]
    have h1 := h x (List.mem_cons_self x t)
    have h2 := ih (fun y hy => h y (List.mem_cons_of_mem x hy))
    have e : f x + (t.map f).sum - (g x + (t.map g).sum)
        = (f x - g x) + ((t.map f).sum - (t.map g).sum) := by ring
    rw [e]
    push_cast
    calc |(f x - g x) + ((t.map f).sum - (t.map g).sum)|
        ≤ |f x - g x| + |(t.map f).sum - (t.map g).sum| := abs_add _ _
      _ ≤ ε + t.length * ε := add_le_add h1 h2
      _ = ((t.length : ℚ) + 1) * ε := by ring

theorem ratio_sum_bound (T A : ℚ) (vs : List ℚ) (hT : T ≠ 0) (hsum : A + vs.sum = T) :
    |round2 (A / T * 100) + (vs.map (fun v => round2 (v / T * 100))).sum - 100|
      ≤ (1 + (vs.length : ℚ)) / 200 := by
  have hg : (vs.map (fun v => v / T * 100)).sum = vs.sum * (100 / T) := by
    have e : (fun v : ℚ => v / T * 100) = (fun v : ℚ => v * (100 / T)) := by
      funext v; ring
    rw [e, sum_map_mul_const]
  have hexact : A / T * 100 + (vs.map (fun v => v / T * 100)).sum = 100 := by
    rw [hg]
    have : A / T * 100 + vs.sum * (100 / T) = (A + vs.sum) * (100 / T) := by ring
    rw [this, hsum]
    field_simp
  have hdiff : |(vs.map (fun v => round2 (v / T * 100))).sum
      - (vs.map (fun v => v / T * 100)).sum| ≤ vs.length * (1 / 200) :=
    list_sum_sub_le vs _ _ _ (fun x _ => abs_round2_sub _)
  have hA := abs_round2_sub (A / T * 100)
  have e : round2 (A / T * 100) + (vs.map (fun v => round2 (v / T * 100))).sum - 100
      = (round2 (A / T * 100) - A / T * 100)
        + ((vs.map (fun v => round2 (v / T * 100))).sum
            - (vs.map (fun v => v / T * 100)).sum) := by
    linarith [hexact]
  rw [e]
  calc |(round2 (A / T * 100) - A / T * 100)
        + ((vs.map (fun v => round2 (v / T * 100))).sum
            - (vs.map (fun v => v / T * 100)).sum)|
      ≤ |round2 (A / T * 100) - A / T * 100|
        + |(vs.map (fun v => round2 (v / T * 100))).sum
            - (vs.map (fun v => v / T * 100)).sum| := abs_add _ _
    _ ≤ 1 / 200 + vs.length * (1 / 200) := add_le_add hA hdiff
    _ = (1 + (vs.length : ℚ)) / 200 := by ring

theorem mention_sov_sum_bound (a : ℕ) (cs : List (String × ℕ))
    (h : a + (cs.map (fun p => p.2)).sum ≠ 0) :
    |sovSum (calculate_mention_based_sov a cs) - 100| ≤ (1 + (cs.length : ℚ)) / 200 := by
  have hT : ((a + (cs.map (fun p => p.2)).sum : ℕ) : ℚ) ≠ 0 := Nat.cast_ne_zero.mpr h
  have hsum : (a : ℚ) + (cs.map (fun p => ((p.2 : ℕ) : ℚ))).sum
      = ((a + (cs.map (fun p => p.2)).sum : ℕ) : ℚ) := by
    push_cast
    rw [List.map_map]
    rfl
  have core := ratio_sum_bound ((a + (cs.map (fun p => p.2)).sum : ℕ) : ℚ) (a : ℚ)
    (cs.map (fun p => ((p.2 : ℕ) : ℚ))) hT hsum
  simp only [calculate_mention_based_sov, sovSum]
  rw [if_neg h]
  simpa [List.map_map] using core

theorem engagement_sov_sum_bound (ae : ℚ) (ce : List (String × ℚ))
    (h : ae + (ce.map (fun p => p.2)).sum ≠ 0) :
    |sovSum (calculate_engagement_based_sov ae ce) - 100| ≤ (1 + (ce.length : ℚ)) / 200 := by
  have core := ratio_sum_bound (ae + (ce.map (fun p => p.2)).sum) ae
    (ce.map (fun p => p.2)) h rfl
  simp only [calculate_engagement_based_sov, sovSum]
  rw [if_neg h]
  simpa [List.map_map] using core

/-- C2 (counterexample): with seven brands at one mention each, every share
rounds to 14.29 and the rounded shares total 100.03, which is outside the
claimed tolerance of 0.01 around 100. -/
theorem c2_tolerance_counterexample :
    sovSum (calculate_mention_based_sov 1
      [("havells", 1), ("orient", 1), ("ortem", 1), ("agni", 1), ("carro", 1), ("luminous", 1)])
      = 10003 / 100 ∧
    ¬ (|sovSum (calculate_mention_based_sov 1
      [("havells", 1), ("orient", 1), ("ortem", 1), ("agni", 1), ("carro", 1), ("luminous", 1)])
        - 100| ≤ 1 / 100) := by
  have hround : round2 (100 / 7 : ℚ) = 1429 / 100 := by
    have h := roundTo_high 2 (100 / 7 : ℚ) 1428 (by norm_num) (by norm_num)
    rw [round2, h]
    norm_num
  have htot : (1 + (List.map (fun p => p.2)
      [("havells", (1 : ℕ)), ("orient", 1), ("ortem", 1), ("agni", 1), ("carro", 1),
       ("luminous", 1)]).sum : ℕ) = 7 := by decide
  have hval : sovSum (calculate_mention_based_sov 1
      [("havells", 1), ("orient", 1), ("ortem", 1), ("agni", 1), ("carro", 1), ("luminous", 1)])
      = 10003 / 100 := by
    rw [mention_sov_eval 1 _ (by decide)]
    rw [htot]
    simp only [sovSum, List.map_cons, List.map_nil, List.sum_cons, List.sum_nil]
    norm_num [hround]
  refine ⟨hval, ?_⟩
  rw [hval]
  rw [show (10003 : ℚ) / 100 - 100 = 3 / 100 by norm_num]
  rw [abs_of_pos (by norm_num)]
  norm_num

/-- C2 (amended): for every mention-based and engagement-based SoV
distribution whose shared denominator is nonzero, the primary percentage plus
the sum of all competitor percentages (each independently rounded to 2
decimals) equals 100 within 0.005 × (number of brands), i.e. within
(1 + competitor count)/200; when the denominator is zero the distribution is
the zero distribution (primary 0, empty competitor map). -/
theorem c2_rounded_sum_bound :
    ∀ (a : ℕ) (cs : List (String × ℕ)) (ae : ℚ) (ce : List (String × ℚ)),
      (a + (cs.map (fun p => p.2)).sum ≠ 0 →
        |sovSum (calculate_mention_based_sov a cs) - 100| ≤ (1 + (cs.length : ℚ)) / 200) ∧
      (a + (cs.map (fun p => p.2)).sum = 0 →
        calculate_mention_based_sov a cs = ⟨0, []⟩) ∧
      (ae + (ce.map (fun p => p.2)).sum ≠ 0 →
        |sovSum (calculate_engagement_based_sov ae ce) - 100| ≤ (1 + (ce.length : ℚ)) / 200) ∧
      (ae + (ce.map (fun p => p.2)).sum = 0 →
        calculate_engagement_based_sov ae ce = ⟨0, []⟩) := by
  intro a cs ae ce
  refine ⟨mention_sov_sum_bound a cs, fun h => ?_, engagement_sov_sum_bound ae ce, fun h => ?_⟩
  · simp only [calculate_mention_based_sov]
    rw [if_pos h]
  · simp only [calculate_engagement_based_sov]
    rw [if_pos h]

/-- Witness for C2 (amended) at concrete inputs. -/
theorem c2_rounded_sum_bound_witness :
    (|sovSum (calculate_mention_based_sov 1 [("havells", 1)]) - 100| ≤ 1 / 100) ∧
    calculate_mention_based_sov 0 [] = ⟨0, []⟩ ∧
    (|sovSum (calculate_engagement_based_sov 1 [("havells", 1)]) - 100| ≤ 1 / 100) ∧
    calculate_engagement_based_sov 0 [] = ⟨0, []⟩ := by
  refine ⟨?_, ?_, ?_, ?_⟩
  · have h := (c2_rounded_sum_bound 1 [("havells", 1)] 1 [("havells", (1 : ℚ))]).1 (by decide)
    exact le_of_le_of_eq h (by norm_num)
  · exact (c2_rounded_sum_bound 0 [] 0 []).2.1 (by decide)
  · have h := (c2_rounded_sum_bound 1 [("havells", 1)] 1
      [("havells", (1 : ℚ))]).2.2.1 (by norm_num)
    exact le_of_le_of_eq h (by norm_num)
  · exact (c2_rounded_sum_bound 0 [] 0 []).2.2.2 (by norm_num)

/-- C5: for nonzero total mentions, the mention-based SoV gives the primary
`round2(primary/total × 100)` and each competitor the analogous rounded
ratio, in input order, with no renormalization after rounding; for zero
total the result is the zero distribution. -/
theorem c5_mention_sov_formula :
    ∀ (a : ℕ) (cs : List (String × ℕ)),
      (a + (cs.map (fun p => p.2)).sum ≠ 0 →
        (calculate_mention_based_sov a cs).atomberg
            = round2 ((a : ℚ) / ((a + (cs.map (fun p => p.2)).sum : ℕ) : ℚ) * 100) ∧
        (calculate_mention_based_sov a cs).competitors
            = cs.map (fun p =>
                (p.1, round2 ((p.2 : ℚ) / ((a + (cs.map (fun q => q.2)).sum : ℕ) : ℚ) * 100)))) ∧
      (a + (cs.map (fun p => p.2)).sum = 0 →
        calculate_mention_based_sov a cs = ⟨0, []⟩) := by
  intro a cs
  simp only [calculate_mention_based_sov]
  constructor
  · intro h
    rw [if_neg h]
    exact ⟨rfl, rfl⟩
  · intro h
    rw [if_pos h]

/-- Witness for C5 at concrete inputs. -/
theorem c5_mention_sov_formula_witness :
    (calculate_mention_based_sov 1 [("havells", 3)]).atomberg = round2 ((1 : ℚ) / 4 * 100) ∧
    (calculate_mention_based_sov 1 [("havells", 3)]).competitors
        = [("havells", round2 ((3 : ℚ) / 4 * 100))] ∧
    calculate_mention_based_sov 0 [] = ⟨0, []⟩ := by
  have h := c5_mention_sov_formula 1 [("havells", 3)]
  have h1 := h.1 (by decide)
  refine ⟨by simpa using h1.1, by simpa using h1.2, (c5_mention_sov_formula 0 []).2 (by decide)⟩

theorem rank_foldl (a : ℚ) (l : List (String × ℚ)) (k : ℕ) :
    l.foldl (fun r p => if p.2 > a then r + 1 else r) k
      = k + l.countP (fun p => decide (a < p.2)) := by
  induction l generalizing k with
  | nil => simp
  | cons x t ih =>
    simp only [List.foldl_cons, List.countP_cons]
    rw [ih]
    by_cases h : a < x.2
    · rw [if_pos h, decide_eq_true h, if_pos rfl]
      omega
    · rw [if_neg h, decide_eq_false h, if_neg Bool.false_ne_true]
      omega

theorem insertDesc_perm (x : String × ℚ) (l : List (String × ℚ)) :
    (insertDesc x l).Perm (x :: l) := by
  induction l with
  | nil => exact List.Perm.refl _
  | cons y t ih =>
    simp only [insertDesc]
    split_ifs with h
    · exact ((ih.cons y).trans (List.Perm.swap x y t))
    · exact List.Perm.refl _

theorem sortDesc_perm (l : List (String × ℚ)) : (sortDesc l).Perm l := by
  induction l with
  | nil => exact List.Perm.refl _
  | cons y t ih =>
    have e : sortDesc (y :: t) = insertDesc y (sortDesc t) := rfl
    rw [e]
    exact (insertDesc_perm y (sortDesc t)).trans (ih.cons y)

/-- C4: the primary's rank in a composite SoV summary is 1 plus the number of
competitors whose score strictly exceeds the primary's; in particular a
competitor tying the primary (both at 50) leaves the rank at 1. -/
theorem c4_rank_counts_strictly_greater :
    (∀ d : SoVDist, (generate_sov_summary d).rank
        = 1 + d.competitors.countP (fun p => decide (d.atomberg < p.2))) ∧
    (generate_sov_summary ⟨50, [("havells", 50)]⟩).rank = 1 := by
  constructor
  · intro d
    simp only [generate_sov_summary]
    rw [rank_foldl]
    rw [(sortDesc_perm d.competitors).countP_eq]
  · decide

/-- C6: weights that do not sum to 1 are renormalized proportionally before
use, so weights {mention 0.8, engagement 0.8, positive 0.4} produce the same
composite distribution as {mention 0.4, engagement 0.4, positive 0.2}, for
all input distributions. -/
theorem c6_weight_renormalization :
    ∀ (m e : SoVDist) (p : PositiveVoice),
      calculate_composite_sov m e p (some ⟨4 / 5, 4 / 5, 2 / 5⟩)
        = calculate_composite_sov m e p (some ⟨2 / 5, 2 / 5, 1 / 5⟩) := by
  intro m e p
  have h1 : resolveWeights ⟨4 / 5, 4 / 5, 2 / 5⟩ = ⟨2 / 5, 2 / 5, 1 / 5⟩ := by
    simp only [resolveWeights]
    rw [if_pos (by norm_num : ((4 : ℚ) / 5 + 4 / 5 + 2 / 5) ≠ 1)]
    norm_num [Weights.mk.injEq]
  have h2 : resolveWeights ⟨2 / 5, 2 / 5, 1 / 5⟩ = ⟨2 / 5, 2 / 5, 1 / 5⟩ := by
    simp only [resolveWeights]
    rw [if_neg (by norm_num : ¬ ((2 : ℚ) / 5 + 2 / 5 + 1 / 5) ≠ 1)]
  show compositeCore m e p (resolveWeights ⟨4 / 5, 4 / 5, 2 / 5⟩)
      = compositeCore m e p (resolveWeights ⟨2 / 5, 2 / 5, 1 / 5⟩)
  rw [h1, h2]

/-- Tokens of the fallback classifier: lowercase, then whitespace split. -/
def fallbackTokens (t : String) : List (List Char) := pySplit (lowerStr t)

/-- Positive-token count of the fallback classifier. -/
def fallbackPos (t : String) : ℕ := countHits positive_words (fallbackTokens t)

/-- Negative-token count of the fallback classifier. -/
def fallbackNeg (t : String) : ℕ := countHits negative_words (fallbackTokens t)

/-- The clamped polarity the claim describes: (pos−neg)/(pos+neg) clamped to
[-1,1], 0 when pos+neg = 0. -/
def polaritySpec (t : String) : ℚ :=
  if fallbackPos t + fallbackNeg t = 0 then 0
  else min 1 (max (-1)
    (((fallbackPos t : ℚ) - (fallbackNeg t : ℚ)) / ((fallbackPos t + fallbackNeg t : ℕ) : ℚ)))

/-- The subjectivity the code actually produces (before rounding): 0.3
whenever pos+neg = 0, else min(1, (pos+neg)/token_count). -/
def subjectivitySpec (t : String) : ℚ :=
  if fallbackPos t + fallbackNeg t = 0 then 3 / 10
  else min 1 (((fallbackPos t + fallbackNeg t : ℕ) : ℚ) / ((fallbackTokens t).length : ℚ))

/-- Modelled from the spec claim, for comparison: the subjectivity the claim
predicts — the 0.3 default applies exactly when pos+neg = 0 AND the token
count is positive; with no tokens the claim leaves min(1, 0/0) = 0. -/
def claimSubjectivity (t : String) : ℚ :=
  if fallbackPos t + fallbackNeg t = 0 ∧ 0 < (fallbackTokens t).length then 3 / 10
  else if 0 < (fallbackTokens t).length then
    min 1 (((fallbackPos t + fallbackNeg t : ℕ) : ℚ) / ((fallbackTokens t).length : ℚ))
  else 0

theorem countHits_ne_nil {ws : List String} {tokens : List (List Char)}
    (h : countHits ws tokens ≠ 0) : tokens ≠ [] := by
  intro he
  subst he
  simp [countHits] at h

theorem simple_sentiment_eq (t : String) :
    simple_sentiment t =
      (polaritySpec t, if fallbackPos t + fallbackNeg t = 0 then 3 / 10
                       else subjectivitySpec t) := by
  by_cases h : fallbackPos t + fallbackNeg t = 0
  · have h2 : countHits positive_words (pySplit (lowerStr t))
        + countHits negative_words (pySplit (lowerStr t)) = 0 := h
    simp only [simple_sentiment]
    rw [if_pos h2, if_pos h]
    simp only [polaritySpec]
    rw [if_pos h]
  · have h2 : ¬ (countHits positive_words (pySplit (lowerStr t))
        + countHits negative_words (pySplit (lowerStr t)) = 0) := h
    have hw : pySplit (lowerStr t) ≠ [] := by
      rcases Nat.eq_zero_or_pos (fallbackPos t) with hp | hp
      · have hn : fallbackNeg t ≠ 0 := by omega
        exact countHits_ne_nil hn
      · exact countHits_ne_nil (by omega : fallbackPos t ≠ 0)
    simp only [simple_sentiment]
    rw [if_neg h2, if_neg h, if_pos hw]
    simp only [polaritySpec, subjectivitySpec]
    rw [if_neg h, if_neg h]
    simp only [Prod.mk.injEq]
    refine ⟨rfl, ?_⟩
    rw [← min_assoc, min_self]
    rfl

/-- C7 (counterexample): on the whitespace-only text " " the classifier
returns subjectivity 0.3 although the token count is 0; the claim's
"0.3 exactly when pos+neg = 0 and token_count > 0" predicts 0 there. -/
theorem c7_whitespace_subjectivity_counterexample :
    (analyze_sentiment " ").subjectivity = 3 / 10 ∧
    fallbackTokens " " = [] ∧
    claimSubjectivity " " = 0 ∧
    ¬ ((3 : ℚ) / 10 = 0) := by
  have hs : simple_sentiment " " = (0, 3 / 10) := by
    simp only [simple_sentiment]
    rw [if_pos (by decide)]
  have hr3 : round3 ((3 : ℚ) / 10) = 3 / 10 := by
    have h := roundTo_low 3 (3 / 10) 300 (by norm_num) (by norm_num)
    rw [round3, h]
    norm_num
  have e1 : analyze_sentiment " " = ⟨round3 0, round3 (3 / 10), "neutral"⟩ := by
    simp only [analyze_sentiment, hs]
    rw [if_neg (by decide : ¬(" " = ""))]
    rw [if_neg (by norm_num : ¬((0 : ℚ), (3 : ℚ) / 10).1 > 1 / 10),
        if_neg (by norm_num : ¬((0 : ℚ), (3 : ℚ) / 10).1 < -(1 / 10))]
  refine ⟨?_, by decide, ?_, by norm_num⟩
  · rw [e1, hr3]
  · simp only [claimSubjectivity]
    rw [if_neg (by decide), if_neg (by decide)]

/-- C7 (amended): the fallback classifier tokenizes the lowercased text on
whitespace, counts tokens containing a positive-set or negative-set word as
a substring, and returns polarity (pos−neg)/(pos+neg) clamped to [-1,1] (0
when pos+neg = 0) and subjectivity min(1, (pos+neg)/token_count), with the
0.3 default whenever pos+neg = 0 (including token_count = 0); both returned
scores are rounded to 3 decimals; the label tests the unrounded polarity
(> 0.1 positive, < −0.1 negative, else neutral); empty input yields neutral
with both scores 0. -/
theorem c7_fallback_classifier_characterization :
    ∀ t : String,
      (t = "" → analyze_sentiment t = ⟨0, 0, "neutral"⟩) ∧
      (t ≠ "" →
        analyze_sentiment t =
          ⟨round3 (polaritySpec t), round3 (subjectivitySpec t),
           if polaritySpec t > 1 / 10 then "positive"
           else if polaritySpec t < -(1 / 10) then "negative"
           else "neutral"⟩) := by
  intro t
  constructor
  · intro h
    simp only [analyze_sentiment]
    rw [if_pos h]
  · intro h
    simp only [analyze_sentiment]
    rw [if_neg h, simple_sentiment_eq t]
    by_cases htot : fallbackPos t + fallbackNeg t = 0
    · rw [if_pos htot]
      have hsubj : subjectivitySpec t = 3 / 10 := by
        simp only [subjectivitySpec]
        rw [if_pos htot]
      rw [hsubj]
    · rw [if_neg htot]

/-- Witness for C7 (amended) at concrete inputs. -/
theorem c7_fallback_classifier_characterization_witness :
    analyze_sentiment "" = ⟨0, 0, "neutral"⟩ ∧
    analyze_sentiment "good" = ⟨1, 1, "positive"⟩ := by
  have h1 := (c7_fallback_classifier_characterization "").1 rfl
  have h2 := (c7_fallback_classifier_characterization "good").2 (by decide)
  refine ⟨h1, ?_⟩
  have hp : polaritySpec "good" = 1 := by
    simp only [polaritySpec]
    rw [if_neg (by decide)]
    rw [show fallbackPos "good" = 1 from by decide, show fallbackNeg "good" = 0 from by decide]
    norm_num
  have hsub : subjectivitySpec "good" = 1 := by
    simp only [subjectivitySpec]
    rw [if_neg (by decide)]
    rw [show fallbackPos "good" = 1 from by decide, show fallbackNeg "good" = 0 from by decide,
        show (fallbackTokens "good").length = 1 from by decide]
    norm_num
  have hr1 : round3 (1 : ℚ) = 1 := by
    have h := roundTo_low 3 1 1000 (by norm_num) (by norm_num)
    rw [round3, h]
    norm_num
  rw [h2, hp, hsub, hr1]
  rw [if_pos (by norm_num : (1 : ℚ) > 1 / 10)]

/-- The set of seen keys after `dedupAux` has processed a list. -/
def seenAfter (seen : List String) : List Item → List String
  | [] => seen
  | r :: rest =>
    if r.url ≠ "" ∧ r.url ∉ seen then seenAfter (r.url :: seen) rest
    else seenAfter seen rest

theorem seenAfter_append (seen : List String) (l1 l2 : List Item) :
    seenAfter seen (l1 ++ l2) = seenAfter (seenAfter seen l1) l2 := by
  induction l1 generalizing seen with
  | nil => rfl
  | cons x t ih =>
    simp only [List.cons_append, seenAfter]
    split_ifs with hc
    · exact ih _
    · exact ih _

theorem mem_seenAfter_mono {s : String} {seen : List String} (l : List Item)
    (h : s ∈ seen) : s ∈ seenAfter seen l := by
  induction l generalizing seen with
  | nil => exact h
  | cons x t ih =>
    simp only [seenAfter]
    split_ifs with hc
    · exact ih (List.mem_cons_of_mem _ h)
    · exact ih h

theorem mem_seenAfter_self {r : Item} (h : r.url ≠ "") (seen : List String)
    (l : List Item) : r.url ∈ seenAfter seen (r :: l) := by
  simp only [seenAfter]
  split_ifs with hc
  · exact mem_seenAfter_mono l (List.mem_cons_self _ _)
  · have : r.url ∈ seen := by
      by_contra hn
      exact hc ⟨h, hn⟩
    exact mem_seenAfter_mono l this

theorem dedupAux_skip {b : Item} (l1 : List Item) (seen : List String) (l2 : List Item)
    (hb : b.url = "" ∨ b.url ∈ seenAfter seen l1) :
    dedupAux seen (l1 ++ b :: l2) = dedupAux seen (l1 ++ l2) := by
  induction l1 generalizing seen with
  | nil =>
    simp only [List.nil_append, dedupAux]
    rw [if_neg]
    intro hc
    rcases hb with h | h
    · exact hc.1 h
    · exact hc.2 h
  | cons x t ih =>
    simp only [List.cons_append, dedupAux]
    split_ifs with hc
    · have hb2 : b.url = "" ∨ b.url ∈ seenAfter (x.url :: seen) t := by
        rw [show seenAfter seen (x :: t) = seenAfter (x.url :: seen) t from by
          simp only [seenAfter]; rw [if_pos hc]] at hb
        exact hb
      exact congrArg (List.cons x) (ih _ hb2)
    · have hb2 : b.url = "" ∨ b.url ∈ seenAfter seen t := by
        rw [show seenAfter seen (x :: t) = seenAfter seen t from by
          simp only [seenAfter]; rw [if_neg hc]] at hb
        exact hb
      exact ih _ hb2

theorem dedupAux_sublist (seen : List String) (l : List Item) :
    (dedupAux seen l).Sublist l := by
  induction l generalizing seen with
  | nil => exact List.Sublist.refl _
  | cons x t ih =>
    simp only [dedupAux]
    split_ifs with hc
    · exact (ih _).cons₂ _
    · exact (ih _).cons _

theorem dedupAux_mem_url {x : Item} {l : List Item} {seen : List String}
    (hx : x ∈ dedupAux seen l) : x.url ≠ "" := by
  induction l generalizing seen with
  | nil => simp [dedupAux] at hx
  | cons r t ih =>
    simp only [dedupAux] at hx
    split_ifs at hx with hc
    · rcases List.mem_cons.mp hx with he | hm
      · rw [he]
        exact hc.1
      · exact ih hm
    · exact ih hx

theorem dedupAux_idem (seen : List String) (l : List Item) :
    dedupAux seen (dedupAux seen l) = dedupAux seen l := by
  induction l generalizing seen with
  | nil => rfl
  | cons r t ih =>
    simp only [dedupAux]
    split_ifs with hc
    · simp only [dedupAux]
      rw [if_pos hc, ih]
    · exact ih _

/-- C8: a later item sharing the (nonempty) id of an earlier one is dropped,
everything else is kept unchanged, and the output is a sublist of the input
(first-seen kept, relative order preserved). -/
theorem c8_dedup_keeps_first_seen :
    ∀ (pre mid post : List Item) (a b : Item),
      a.url = b.url → a.url ≠ "" →
      deduplicate_results (pre ++ a :: mid ++ b :: post)
        = deduplicate_results (pre ++ a :: mid ++ post) ∧
      (deduplicate_results (pre ++ a :: mid ++ b :: post)).Sublist
        (pre ++ a :: mid ++ b :: post) := by
  intro pre mid post a b heq hne
  constructor
  · unfold deduplicate_results
    have hb : b.url = "" ∨ b.url ∈ seenAfter [] (pre ++ a :: mid) := by
      right
      rw [← heq, seenAfter_append]
      exact mem_seenAfter_self hne _ mid
    have e1 : pre ++ a :: mid ++ b :: post = (pre ++ a :: mid) ++ b :: post := by simp
    have e2 : pre ++ a :: mid ++ post = (pre ++ a :: mid) ++ post := by simp
    rw [e1, e2]
    exact dedupAux_skip _ _ _ hb
  · exact dedupAux_sublist _ _

/-- Witness for C8 at a concrete batch: two items share id "u" with
different content; only the first survives. -/
theorem c8_dedup_keeps_first_seen_witness :
    deduplicate_results [{ title := "first", url := "u" }, { title := "second", url := "u" }]
      = deduplicate_results [{ title := "first", url := "u" }] ∧
    (deduplicate_results [{ title := "first", url := "u" }, { title := "second", url := "u" }]).Sublist
      [{ title := "first", url := "u" }, { title := "second", url := "u" }] := by
  have h := c8_dedup_keeps_first_seen [] [] []
    { title := "first", url := "u" } { title := "second", url := "u" } rfl (by decide)
  simpa using h

/-- C9: every item whose deduplication key is missing or empty is absent
from the deduplicated output, even if no other item shares its key. -/
theorem c9_dedup_drops_empty_ids :
    ∀ (results : List Item) (x : Item),
      x ∈ deduplicate_results results → x.url ≠ "" := by
  intro results x hx
  exact dedupAux_mem_url hx

/-- Witness for C9 at a concrete batch. -/
theorem c9_dedup_drops_empty_ids_witness :
    ({ title := "a", url := "u" } : Item).url ≠ "" := by
  exact c9_dedup_drops_empty_ids [{ title := "a", url := "u" }]
    { title := "a", url := "u" } (by decide)

/-- The mention, sentiment and engagement stages run on one batch
(the analysis stages of `analyze_keyword`). -/
def run_analysis_stages (items : List Item) (bk : List (String × List String)) :
    BrandAnalysis × SentimentSummary × EngagementSummary :=
  (analyze_brands items bk, analyze_sentiments items, analyze_engagement items)

/-- C10: deduplication is idempotent, and on an already-deduplicated batch
re-running the mention-counting, sentiment and engagement stages yields
identical results — they are deterministic functions of their inputs (the
embedding is a pure function of the batch and the brand map, mirroring the
absence of mutable state in the source stages). -/
theorem c10_stage_determinism :
    ∀ (items : List Item) (bk : List (String × List String)),
      deduplicate_results (deduplicate_results items) = deduplicate_results items ∧
      (deduplicate_results items = items →
        run_analysis_stages items bk = run_analysis_stages items bk ∧
        run_analysis_stages (deduplicate_results items) bk = run_analysis_stages items bk) := by
  intro items bk
  exact ⟨dedupAux_idem [] items, fun h => ⟨rfl, by rw [h]⟩⟩

/-- Witness for C10 at a concrete deduplicated batch. -/
theorem c10_stage_determinism_witness :
    run_analysis_stages (deduplicate_results [{ title := "atomberg fan", url := "u", likes := 10 }])
        [("atomberg", ["atomberg"])]
      = run_analysis_stages [{ title := "atomberg fan", url := "u", likes := 10 }]
        [("atomberg", ["atomberg"])] := by
  exact ((c10_stage_determinism [{ title := "atomberg fan", url := "u", likes := 10 }]
    [("atomberg", ["atomberg"])]).2 (by decide)).2

theorem map_congr_mem {α β : Type} (l : List α) (f g : α → β)
    (h : ∀ a ∈ l, f a = g a) : l.map f = l.map g := by
  induction l with
  | nil => rfl
  | cons x t ih =>
    simp only [List.map_cons]
    rw [h x (List.mem_cons_self x t), ih (fun a ha => h a (List.mem_cons_of_mem x ha))]

theorem brandHit_eq_any (text : String) (kws : List String) :
    brandHit text kws = kws.any (fun k => inStr (lowerStr k) text) := by
  induction kws with
  | nil => rfl
  | cons k t ih =>
    simp only [brandHit, List.any_cons, ih]
    by_cases h : inStr (lowerStr k) text = true
    · rw [if_pos h, h, Bool.true_or]
    · rw [if_neg h, Bool.eq_false_iff.mpr h, Bool.false_or]

/-- The effect of one item's inner brand loop on a single dictionary entry. -/
def applyHits (r : Item) (bk : List (String × List String)) (q : String × ℕ × List Item) :
    String × ℕ × List Item :=
  bk.foldl (fun q2 p =>
    if brandHit (itemText r) p.2 then
      (if q2.1 = p.1 then (q2.1, q2.2.1 + 1, q2.2.2 ++ [r]) else q2)
    else q2) q

theorem brandStep_map (r : Item) (bk : List (String × List String))
    (m : List (String × ℕ × List Item)) :
    brandStep bk m r = m.map (applyHits r bk) := by
  induction bk generalizing m with
  | nil =>
    show m = m.map (applyHits r [])
    rw [show applyHits r [] = id from rfl, List.map_id]
  | cons p t ih =>
    have e0 : brandStep (p :: t) m r
        = brandStep t (if brandHit (itemText r) p.2 then bumpBrand m p.1 r else m) r := rfl
    rw [e0, ih]
    have e1 : (if brandHit (itemText r) p.2 then bumpBrand m p.1 r else m)
        = m.map (fun q => if brandHit (itemText r) p.2 then
            (if q.1 = p.1 then (q.1, q.2.1 + 1, q.2.2 ++ [r]) else q) else q) := by
      by_cases h : brandHit (itemText r) p.2 = true
      · rw [if_pos h]
        simp only [bumpBrand]
        exact map_congr_mem _ _ _ (fun q _ => by rw [if_pos h])
      · rw [if_neg h]
        have e2 : (fun q : String × ℕ × List Item =>
            if brandHit (itemText r) p.2 then
              (if q.1 = p.1 then (q.1, q.2.1 + 1, q.2.2 ++ [r]) else q) else q)
            = fun q => q := funext fun q => if_neg h
        rw [e2, List.map_id']
    rw [e1, List.map_map]
    rfl

theorem applyHits_nohit (r : Item) (bk : List (String × List String))
    (q : String × ℕ × List Item) (h : ∀ p ∈ bk, p.1 ≠ q.1) : applyHits r bk q = q := by
  induction bk generalizing q with
  | nil => rfl
  | cons p t ih =>
    have e1 : applyHits r (p :: t) q
        = applyHits r t (if brandHit (itemText r) p.2 then
            (if q.1 = p.1 then (q.1, q.2.1 + 1, q.2.2 ++ [r]) else q) else q) := rfl
    have hq : (if brandHit (itemText r) p.2 then
        (if q.1 = p.1 then (q.1, q.2.1 + 1, q.2.2 ++ [r]) else q) else q) = q := by
      by_cases hb : brandHit (itemText r) p.2 = true
      · rw [if_pos hb, if_neg (fun hc => (h p (List.mem_cons_self p t)) hc.symm)]
      · rw [if_neg hb]
    rw [e1, hq]
    exact ih q (fun p2 hp2 => h p2 (List.mem_cons_of_mem _ hp2))

theorem applyHits_entry (r : Item) (bk : List (String × List String)) (b : String)
    (kws : List String) (c : ℕ) (l : List Item)
    (hnd : (bk.map (fun p => p.1)).Nodup) (hmem : (b, kws) ∈ bk) :
    applyHits r bk (b, c, l)
      = if brandHit (itemText r) kws then (b, c + 1, l ++ [r]) else (b, c, l) := by
  induction bk with
  | nil => cases hmem
  | cons p t ih =>
    simp only [List.map_cons, List.nodup_cons] at hnd
    rcases List.mem_cons.mp hmem with he | hm
    · subst he
      have e1 : applyHits r ((b, kws) :: t) (b, c, l)
          = applyHits r t (if brandHit (itemText r) kws then
              (if b = b then (b, c + 1, l ++ [r]) else (b, c, l)) else (b, c, l)) := rfl
      rw [e1]
      have hnames : ∀ p2 ∈ t, p2.1 ≠ b := by
        intro p2 hp2 hcon
        exact hnd.1 (hcon ▸ List.mem_map_of_mem (fun p => p.1) hp2)
      by_cases hb : brandHit (itemText r) kws = true
      · rw [if_pos hb, if_pos rfl, if_pos hb]
        exact applyHits_nohit r t _ hnames
      · rw [if_neg hb, if_neg hb]
        exact applyHits_nohit r t _ hnames
    · have hpb : p.1 ≠ b := by
        intro hcon
        exact hnd.1 (hcon ▸ List.mem_map_of_mem (fun p => p.1) hm)
      have e1 : applyHits r (p :: t) (b, c, l)
          = applyHits r t (if brandHit (itemText r) p.2 then
              (if b = p.1 then (b, c + 1, l ++ [r]) else (b, c, l)) else (b, c, l)) := rfl
      have hq : (if brandHit (itemText r) p.2 then
          (if b = p.1 then (b, c + 1, l ++ [r]) else (b, c, l)) else (b, c, l)) = (b, c, l) := by
        by_cases hb2 : brandHit (itemText r) p.2 = true
        · rw [if_pos hb2, if_neg (fun hc => hpb hc.symm)]
        · rw [if_neg hb2]
      rw [e1, hq]
      exact ih hnd.2 hm

theorem foldl_brandStep_eq (bk : List (String × List String))
    (hnd : (bk.map (fun p => p.1)).Nodup) :
    ∀ (todo done : List Item),
      todo.foldl (brandStep bk)
        (bk.map (fun p => (p.1, (done.filter (fun r => brandHit (itemText r) p.2)).length,
          done.filter (fun r => brandHit (itemText r) p.2))))
      = bk.map (fun p => (p.1,
          ((done ++ todo).filter (fun r => brandHit (itemText r) p.2)).length,
          (done ++ todo).filter (fun r => brandHit (itemText r) p.2))) := by
  intro todo
  induction todo with
  | nil => intro done; simp
  | cons r rest ih =>
    intro done
    simp only [List.foldl_cons]
    have hstep : brandStep bk
        (bk.map (fun p => (p.1, (done.filter (fun x => brandHit (itemText x) p.2)).length,
          done.filter (fun x => brandHit (itemText x) p.2)))) r
        = bk.map (fun p => (p.1,
            ((done ++ [r]).filter (fun x => brandHit (itemText x) p.2)).length,
            (done ++ [r]).filter (fun x => brandHit (itemText x) p.2))) := by
      rw [brandStep_map, List.map_map]
      apply map_congr_mem
      intro p hp
      have happ := applyHits_entry r bk p.1 p.2
        (done.filter (fun x => brandHit (itemText x) p.2)).length
        (done.filter (fun x => brandHit (itemText x) p.2)) hnd (by simpa using hp)
      rw [Function.comp_apply, happ]
      by_cases hb : brandHit (itemText r) p.2 = true
      · rw [if_pos hb]
        simp [List.filter_append, hb]
      · rw [if_neg hb]
        simp [List.filter_append, Bool.eq_false_iff.mpr hb]
    rw [hstep, ih (done ++ [r])]
    simp

/-- C3: with unique brand names, mention counting credits each brand, per
item, exactly when some of that brand's keyword variants (scanned in order,
first match stopping the scan) occurs in the item's lowercased text; each
brand's count is the number of such items, computed independently of every
other brand's keywords, so an item matching several brands counts toward
each of them. -/
theorem c3_mention_counting_per_brand :
    ∀ (results : List Item) (bk : List (String × List String)),
      (bk.map (fun p => p.1)).Nodup →
      (analyze_brands results bk).mentions
        = bk.map (fun p => (p.1,
            results.countP (fun r => p.2.any (fun k => inStr (lowerStr k) (itemText r))))) := by
  intro results bk hnd
  have h := foldl_brandStep_eq bk hnd results []
  simp only [List.filter_nil, List.length_nil, List.nil_append] at h
  simp only [analyze_brands, h, List.map_map]
  apply map_congr_mem
  intro p hp
  rw [Function.comp_apply]
  have e : (fun r => p.2.any (fun k => inStr (lowerStr k) (itemText r)))
      = (fun r => brandHit (itemText r) p.2) :=
    funext fun r => (brandHit_eq_any (itemText r) p.2).symm
  rw [e, List.countP_eq_length_filter]

/-- Witness for C3: an item mentioning both brands counts toward both; the
primary has two matching variants but is credited once for that item. -/
theorem c3_mention_counting_per_brand_witness :
    (analyze_brands
      [{ title := "Atomberg vs Havells fan", snippet := "atomberg ceiling fan" },
       { title := "havells fan" }]
      [("atomberg", ["atomberg", "atomberg ceiling fan"]), ("havells", ["havells"])]).mentions
      = [("atomberg", 1), ("havells", 2)] := by
  have h := c3_mention_counting_per_brand
    [{ title := "Atomberg vs Havells fan", snippet := "atomberg ceiling fan" },
     { title := "havells fan" }]
    [("atomberg", ["atomberg", "atomberg ceiling fan"]), ("havells", ["havells"])]
    (by decide)
  rw [h]
  decide

theorem round2_zero : round2 0 = 0 := by
  have h := roundTo_low 2 0 0 (by norm_num) (by norm_num)
  rw [round2, h]
  norm_num

theorem round3_zero : round3 0 = 0 := by
  have h := roundTo_low 3 0 0 (by norm_num) (by norm_num)
  rw [round3, h]
  norm_num

theorem sum_map_constQ {α : Type} (l : List α) (c : ℚ) :
    (l.map (fun _ => c)).sum = l.length * c := by
  induction l with
  | nil => simp
  | cons x t ih =>
    simp only [List.map_cons, List.sum_cons, List.length_cons, ih]
    push_cast
    ring

theorem sum_map_constN {α : Type} (l : List α) (c : ℕ) :
    (l.map (fun _ => c)).sum = l.length * c := by
  induction l with
  | nil => simp
  | cons x t ih =>
    simp only [List.map_cons, List.sum_cons, List.length_cons, ih]
    ring

theorem lookupQ_map_const (cl : List (String × List String)) (bb : String) (c : ℚ)
    (h : bb ∈ cl.map (fun p => p.1)) :
    lookupQ (cl.map (fun p => (p.1, c))) bb = c := by
  induction cl with
  | nil => cases h
  | cons p t ih =>
    simp only [List.map_cons, List.mem_cons] at h
    simp only [List.map_cons, lookupQ]
    by_cases hb : p.1 = bb
    · rw [List.find?_cons_of_pos _ (by simpa using hb)]
    · rw [List.find?_cons_of_neg _ (by simpa using hb)]
      have h2 : bb ∈ t.map (fun p => p.1) := by
        rcases h with he | hm
        · exact absurd he.symm hb
        · exact hm
      simpa [lookupQ] using ih h2

theorem dedupKeys_eq_self (l : List String) (h : l.Nodup) : dedupKeys l = l := by
  induction l with
  | nil => simp [dedupKeys]
  | cons k t ih =>
    simp only [List.nodup_cons] at h
    have hf : t.filter (fun x => x ≠ k) = t := by
      rw [List.filter_eq_self]
      intro x hx
      have hxk : x ≠ k := fun hcon => h.1 (hcon ▸ hx)
      simpa using hxk
    simp only [dedupKeys, hf]
    rw [ih h.2]

theorem countP_map_const_val (cl : List (String × List String)) (v : ℚ) :
    (cl.map (fun p => (p.1, v))).countP (fun p => decide (0 < p.2))
      = if 0 < v then cl.length else 0 := by
  induction cl with
  | nil => simp
  | cons p t ih =>
    simp only [List.map_cons, List.countP_cons, List.length_cons, ih]
    by_cases h : 0 < v
    · simp [h]
    · simp [h]

theorem mention_sov_zero_of_zero_counts (cl : List (String × List String)) :
    calculate_mention_based_sov 0 (cl.map (fun p => (p.1, (0 : ℕ)))) = ⟨0, []⟩ := by
  simp only [calculate_mention_based_sov]
  rw [if_pos]
  simp only [List.map_map]
  have h : ((fun p => p.2) ∘ fun p : String × List String => (p.1, (0 : ℕ)))
      = fun _ => (0 : ℕ) := rfl
  rw [h, sum_map_constN]
  simp

theorem engagement_sov_hardcoded (cl : List (String × List String)) (hne : cl ≠ []) :
    calculate_engagement_based_sov 0 (cl.map (fun p => (p.1, (100 : ℚ))))
      = ⟨0, cl.map (fun p => (p.1, round2 (100 / (cl.length : ℚ))))⟩ := by
  have hn : 0 < cl.length := List.length_pos.mpr hne
  have hnQ : (0 : ℚ) < (cl.length : ℚ) := by exact_mod_cast hn
  have hsum : ((cl.map (fun p => (p.1, (100 : ℚ)))).map (fun p => p.2)).sum
      = cl.length * 100 := by
    rw [List.map_map]
    exact sum_map_constQ cl 100
  simp only [calculate_engagement_based_sov, hsum]
  rw [if_neg (by positivity)]
  have hz : round2 (0 / (0 + (cl.length : ℚ) * 100) * 100) = 0 := by
    rw [show (0 : ℚ) / (0 + (cl.length : ℚ) * 100) * 100 = 0 by ring]
    exact round2_zero
  rw [hz, List.map_map]
  refine congrArg (SoVDist.mk 0) ?_
  apply map_congr_mem
  intro p hp
  have harg : (100 : ℚ) / (0 + (cl.length : ℚ) * 100) * 100 = 100 / (cl.length : ℚ) := by
    field_simp
    ring
  simp only [Function.comp_apply]
  rw [harg]

theorem positive_sov_hardcoded (cl : List (String × List String)) (hne : cl ≠ []) :
    calculate_positive_voice_sov 0 0 (cl.map (fun p => (p.1, (25, 100))))
      = ⟨⟨0, cl.map (fun p => (p.1, 25))⟩,
         ⟨0, cl.map (fun p => (p.1, round2 (100 / (cl.length : ℚ))))⟩⟩ := by
  have hn : 0 < cl.length := List.length_pos.mpr hne
  have hsum25 : ((cl.map (fun p => (p.1, ((25 : ℕ), (100 : ℕ))))).map (fun p => p.2.1)).sum
      = cl.length * 25 := by
    rw [List.map_map]
    exact sum_map_constN cl 25
  have hsum100 : ((cl.map (fun p => (p.1, ((25 : ℕ), (100 : ℕ))))).map (fun p => p.2.2)).sum
      = cl.length * 100 := by
    rw [List.map_map]
    exact sum_map_constN cl 100
  simp only [calculate_positive_voice_sov, hsum25, hsum100]
  rw [if_neg (by omega : ¬ (0 < (0 : ℕ))), if_neg (by omega : ¬ (0 + cl.length * 100 = 0)),
      if_pos (by omega : 0 < 0 + cl.length * 25)]
  refine congrArg₂ PositiveVoice.mk ?_ ?_
  · refine congrArg₂ SoVDist.mk round2_zero ?_
    simp only [List.map_map]
    apply map_congr_mem
    intro p hp
    show (p.1, round2 (if (100 : ℕ) > 0 then ((25 : ℕ) : ℚ) / ((100 : ℕ) : ℚ) * 100 else 0))
        = (p.1, (25 : ℚ))
    rw [if_pos (by omega : (100 : ℕ) > 0)]
    rw [show ((25 : ℕ) : ℚ) / ((100 : ℕ) : ℚ) * 100 = 25 by push_cast; norm_num]
    have h25 : round2 (25 : ℚ) = 25 := by
      have h := roundTo_low 2 25 2500 (by norm_num) (by norm_num)
      rw [round2, h]
      norm_num
    rw [h25]
  · refine congrArg₂ SoVDist.mk ?_ ?_
    · rw [show ((0 : ℕ) : ℚ) / ((0 + cl.length * 25 : ℕ) : ℚ) * 100 = 0 by
        push_cast; ring]
      exact round2_zero
    · simp only [List.map_map]
      apply map_congr_mem
      intro p hp
      show (p.1, round2 (if 0 + cl.length * 25 > 0 then
          ((25 : ℕ) : ℚ) / ((0 + cl.length * 25 : ℕ) : ℚ) * 100 else 0))
        = (p.1, round2 (100 / (cl.length : ℚ)))
      rw [if_pos (by omega : 0 + cl.length * 25 > 0)]
      have harg : ((25 : ℕ) : ℚ) / ((0 + cl.length * 25 : ℕ) : ℚ) * 100
          = 100 / (cl.length : ℚ) := by
        have hnQ : (0 : ℚ) < (cl.length : ℚ) := by exact_mod_cast hn
        push_cast
        field_simp
        ring
      rw [harg]

theorem composite_sov_uniform (cl : List (String × List String)) (x : ℚ)
    (pvp : SoVDist) (hnd : (cl.map (fun p => p.1)).Nodup) :
    calculate_composite_sov ⟨0, []⟩ ⟨0, cl.map (fun p => (p.1, x))⟩
        ⟨pvp, ⟨0, cl.map (fun p => (p.1, x))⟩⟩ none
      = ⟨0, cl.map (fun p => (p.1, round2 (x * (3 / 5))))⟩ := by
  have hw : resolveWeights defaultWeights = defaultWeights := by
    simp only [resolveWeights, defaultWeights]
    rw [if_neg (by norm_num : ¬ ((2 : ℚ) / 5 + 2 / 5 + 1 / 5) ≠ 1)]
  show compositeCore _ _ _ (resolveWeights defaultWeights) = _
  rw [hw]
  simp only [compositeCore, defaultWeights]
  have hz : round2 (0 * (2 / 5) + 0 * (2 / 5) + 0 * (1 / 5)) = 0 := by
    rw [show (0 : ℚ) * (2 / 5) + 0 * (2 / 5) + 0 * (1 / 5) = 0 by ring]
    exact round2_zero
  have hkeys : dedupKeys (([] : List (String × ℚ)).map (fun p => p.1)
      ++ (cl.map (fun p => (p.1, x))).map (fun p => p.1)) = cl.map (fun p => p.1) := by
    simp only [List.map_nil, List.nil_append, List.map_map]
    have he : ((fun p => p.1) ∘ fun p : String × List String => (p.1, x))
        = fun p : String × List String => p.1 := rfl
    rw [he]
    exact dedupKeys_eq_self _ hnd
  rw [hz, hkeys]
  refine congrArg (SoVDist.mk 0) ?_
  rw [List.map_map]
  apply map_congr_mem
  intro p hp
  simp only [Function.comp_apply]
  have hl1 : lookupQ ([] : List (String × ℚ)) p.1 = 0 := rfl
  have hl2 : lookupQ ((⟨0, cl.map (fun p => (p.1, x))⟩ : SoVDist).competitors) p.1 = x :=
    lookupQ_map_const cl p.1 x (List.mem_map_of_mem _ hp)
  rw [hl1, hl2]
  refine congrArg (Prod.mk p.1) (congrArg round2 ?_)
  ring

theorem summary_uniform (cl : List (String × List String)) (v : ℚ) :
    (generate_sov_summary ⟨0, cl.map (fun p => (p.1, v))⟩).total_brands = cl.length + 1 ∧
    (generate_sov_summary ⟨0, cl.map (fun p => (p.1, v))⟩).rank
      = 1 + (if 0 < v then cl.length else 0) := by
  constructor
  · simp only [generate_sov_summary]
    rw [(sortDesc_perm _).length_eq, List.length_map]
  · simp only [generate_sov_summary]
    rw [rank_foldl, (sortDesc_perm _).countP_eq, countP_map_const_val]

theorem calculate_sov_empty (cl : List (String × List String))
    (hnd : (cl.map (fun p => p.1)).Nodup)
    (hat : "atomberg" ∉ cl.map (fun p => p.1))
    (hne : cl ≠ [])
    (b : BrandAnalysis) (s : SentimentSummary) (e : EngagementSummary)
    (hb : b.mentions = ("atomberg", 0) :: cl.map (fun p => (p.1, 0)))
    (hs : s.positive_count = 0) (hs2 : s.total_items = 0)
    (he : e.total_engagement = 0) :
    (calculate_sov b s e).mention_based = ⟨0, []⟩ ∧
    (calculate_sov b s e).composite_sov
      = ⟨0, cl.map (fun p => (p.1, round2 (round2 (100 / (cl.length : ℚ)) * (3 / 5))))⟩ ∧
    (calculate_sov b s e).summary.total_brands = cl.length + 1 ∧
    (calculate_sov b s e).summary.rank
      = 1 + (if 0 < round2 (round2 (100 / (cl.length : ℚ)) * (3 / 5)) then cl.length else 0) := by
  have hfilter : b.mentions.filter (fun p => p.1 ≠ "atomberg")
      = cl.map (fun p => (p.1, (0 : ℕ))) := by
    rw [hb, List.filter_cons]
    rw [if_neg (by simp)]
    rw [List.filter_eq_self.mpr]
    intro q hq
    rcases List.mem_map.mp hq with ⟨p, hp, rfl⟩
    have hne2 : p.1 ≠ "atomberg" := fun hcon => hat (hcon ▸ List.mem_map_of_mem _ hp)
    simpa using hne2
  have hlook : (lookupN b.mentions "atomberg").getD 0 = 0 := by
    rw [hb]
    rfl
  have hM : (calculate_sov b s e).mention_based
      = calculate_mention_based_sov ((lookupN b.mentions "atomberg").getD 0)
          (b.mentions.filter (fun p => p.1 ≠ "atomberg")) := rfl
  rw [hlook, hfilter, mention_sov_zero_of_zero_counts] at hM
  have hE : (calculate_sov b s e).engagement_based
      = calculate_engagement_based_sov (e.total_engagement : ℚ)
          ((b.mentions.filter (fun p => p.1 ≠ "atomberg")).map (fun p => (p.1, (100 : ℚ)))) := rfl
  rw [he, hfilter] at hE
  simp only [Nat.cast_zero, List.map_map] at hE
  have hc100 : List.map ((fun p : String × ℕ => (p.1, (100 : ℚ)))
      ∘ (fun p : String × List String => (p.1, (0 : ℕ)))) cl
      = List.map (fun p : String × List String => (p.1, (100 : ℚ))) cl :=
    map_congr_mem _ _ _ (fun p _ => rfl)
  rw [hc100, engagement_sov_hardcoded cl hne] at hE
  have hP : (calculate_sov b s e).positive_voice
      = calculate_positive_voice_sov s.positive_count s.total_items
          ((b.mentions.filter (fun p => p.1 ≠ "atomberg")).map (fun p => (p.1, (25, 100)))) := rfl
  rw [hs, hs2, hfilter] at hP
  simp only [List.map_map] at hP
  have hc25 : List.map ((fun p : String × ℕ => (p.1, ((25 : ℕ), (100 : ℕ))))
      ∘ (fun p : String × List String => (p.1, (0 : ℕ)))) cl
      = List.map (fun p : String × List String => (p.1, ((25 : ℕ), (100 : ℕ)))) cl :=
    map_congr_mem _ _ _ (fun p _ => rfl)
  rw [hc25, positive_sov_hardcoded cl hne] at hP
  have hC : (calculate_sov b s e).composite_sov
      = calculate_composite_sov (calculate_sov b s e).mention_based
          (calculate_sov b s e).engagement_based (calculate_sov b s e).positive_voice none := rfl
  rw [hM, hE, hP, composite_sov_uniform cl _ _ hnd] at hC
  have hS : (calculate_sov b s e).summary
      = generate_sov_summary (calculate_sov b s e).composite_sov := rfl
  rw [hC] at hS
  have hsum := summary_uniform cl (round2 (round2 (100 / (cl.length : ℚ)) * (3 / 5)))
  refine ⟨hM, hC, ?_, ?_⟩
  · rw [hS]
    exact hsum.1
  · rw [hS]
    exact hsum.2

theorem analyze_brands_nil_mentions (bk : List (String × List String)) :
    (analyze_brands [] bk).mentions = bk.map (fun p => (p.1, 0)) := by
  simp only [analyze_brands, List.foldl_nil, List.map_map]
  rfl

theorem analyze_items_empty (ks : List String) (cl : List (String × List String))
    (hnd : (cl.map (fun p => p.1)).Nodup)
    (hat : "atomberg" ∉ cl.map (fun p => p.1))
    (hne : cl ≠ []) :
    (analyze_items [] (("atomberg", ks) :: cl)).sov_analysis.mention_based = ⟨0, []⟩ ∧
    (analyze_items [] (("atomberg", ks) :: cl)).sov_analysis.composite_sov
      = ⟨0, cl.map (fun p => (p.1, round2 (round2 (100 / (cl.length : ℚ)) * (3 / 5))))⟩ ∧
    (analyze_items [] (("atomberg", ks) :: cl)).sov_analysis.summary.total_brands
      = cl.length + 1 ∧
    (analyze_items [] (("atomberg", ks) :: cl)).sov_analysis.summary.rank
      = 1 + (if 0 < round2 (round2 (100 / (cl.length : ℚ)) * (3 / 5)) then cl.length else 0) := by
  have hbm : (analyze_brands [] (("atomberg", ks) :: cl)).mentions
      = ("atomberg", 0) :: cl.map (fun p => (p.1, 0)) := by
    rw [analyze_brands_nil_mentions]
    simp
  have hsov : (analyze_items [] (("atomberg", ks) :: cl)).sov_analysis
      = calculate_sov (analyze_brands [] (("atomberg", ks) :: cl))
          (analyze_sentiments []) (analyze_engagement []) := rfl
  have hcs := calculate_sov_empty cl hnd hat hne
    (analyze_brands [] (("atomberg", ks) :: cl)) (analyze_sentiments [])
    (analyze_engagement []) hbm rfl rfl rfl
  rw [hsov]
  exact hcs

theorem round2_100 : round2 (100 : ℚ) = 100 := by
  have h := roundTo_low 2 100 10000 (by norm_num) (by norm_num)
  rw [round2, h]
  norm_num

theorem round2_60 : round2 (60 : ℚ) = 60 := by
  have h := roundTo_low 2 60 6000 (by norm_num) (by norm_num)
  rw [round2, h]
  norm_num

/-- C1 (counterexample): on the empty batch with primary "atomberg" and one
competitor "havells", the hardcoded placeholder competitor engagement (100)
and sentiment data (25 positive of 100) in the SoV stage give the competitor
a composite score of 60, so the composite is not the zero distribution and
the primary's rank is 2, not 1. -/
theorem c1_empty_batch_counterexample :
    (analyze_items [] [("atomberg", ["atomberg"]),
        ("havells", ["havells"])]).sov_analysis.composite_sov.competitors
      = [("havells", 60)] ∧
    (analyze_items [] [("atomberg", ["atomberg"]),
        ("havells", ["havells"])]).sov_analysis.summary.rank = 2 ∧
    ¬ ((analyze_items [] [("atomberg", ["atomberg"]),
        ("havells", ["havells"])]).sov_analysis.summary.rank = 1) := by
  obtain ⟨h1, h2, h3, h4⟩ := analyze_items_empty ["atomberg"] [("havells", ["havells"])]
    (by decide) (by decide) (by decide)
  norm_num at h2 h4
  rw [round2_100, show (100 : ℚ) * (3 / 5) = 60 from by norm_num, round2_60] at h2 h4
  rw [if_pos (by norm_num : (0 : ℚ) < 60)] at h4
  refine ⟨?_, ?_, ?_⟩
  · rw [h2]
  · rw [h4]
  · rw [h4]
    norm_num

/-- C1 (amended): on an empty item batch (with unique brand names, primary
"atomberg" first, at least one competitor) the SentimentSummary percentages
are all 0, the EngagementSummary sums are all 0, the mention-based SoV is
the zero distribution and the composite primary score is 0, and
total_brands = competitor_count + 1, with no exception (all stages are
total); but the hardcoded placeholder competitor engagement (100 each) and
sentiment data (25 of 100 each) give every one of the n competitors the
composite score round2(0.6·round2(100/n)), and the primary's rank is 1 plus
the number of competitors with positive score (n whenever that score is
positive), not 1. -/
theorem c1_empty_batch_zeroes_and_placeholder :
    ∀ (ks : List String) (cl : List (String × List String)),
      ((("atomberg", ks) :: cl).map (fun p => p.1)).Nodup →
      cl ≠ [] →
      (analyze_items [] (("atomberg", ks) :: cl)).sentiment_analysis.positive_percentage
        = 0 ∧
      (analyze_items [] (("atomberg", ks) :: cl)).sentiment_analysis.negative_percentage
        = 0 ∧
      (analyze_items [] (("atomberg", ks) :: cl)).sentiment_analysis.neutral_percentage
        = 0 ∧
      (analyze_items [] (("atomberg", ks) :: cl)).engagement_analysis.total_likes = 0 ∧
      (analyze_items [] (("atomberg", ks) :: cl)).engagement_analysis.total_comments = 0 ∧
      (analyze_items [] (("atomberg", ks) :: cl)).engagement_analysis.total_shares = 0 ∧
      (analyze_items [] (("atomberg", ks) :: cl)).engagement_analysis.total_views = 0 ∧
      (analyze_items [] (("atomberg", ks) :: cl)).engagement_analysis.total_engagement = 0 ∧
      (analyze_items [] (("atomberg", ks) :: cl)).sov_analysis.mention_based = ⟨0, []⟩ ∧
      (analyze_items [] (("atomberg", ks) :: cl)).sov_analysis.composite_sov
        = ⟨0, cl.map (fun p =>
            (p.1, round2 (round2 (100 / (cl.length : ℚ)) * (3 / 5))))⟩ ∧
      (analyze_items [] (("atomberg", ks) :: cl)).sov_analysis.summary.total_brands
        = cl.length + 1 ∧
      (analyze_items [] (("atomberg", ks) :: cl)).sov_analysis.summary.rank
        = 1 + (if 0 < round2 (round2 (100 / (cl.length : ℚ)) * (3 / 5))
               then cl.length else 0) := by
  intro ks cl hnodup hne
  simp only [List.map_cons, List.nodup_cons] at hnodup
  have h := analyze_items_empty ks cl hnodup.2 hnodup.1 hne
  have hp1 : (analyze_items [] (("atomberg", ks) :: cl)).sentiment_analysis.positive_percentage
      = round2 0 := rfl
  have hp2 : (analyze_items [] (("atomberg", ks) :: cl)).sentiment_analysis.negative_percentage
      = round2 0 := rfl
  have hp3 : (analyze_items [] (("atomberg", ks) :: cl)).sentiment_analysis.neutral_percentage
      = round2 0 := rfl
  exact ⟨by rw [hp1, round2_zero], by rw [hp2, round2_zero], by rw [hp3, round2_zero],
    rfl, rfl, rfl, rfl, rfl, h.1, h.2.1, h.2.2.1, h.2.2.2⟩

/-- Witness for C1 (amended) at a concrete configuration. -/
theorem c1_empty_batch_zeroes_and_placeholder_witness :
    (analyze_items [] [("atomberg", ["atomberg"]),
        ("havells", ["havells"])]).sentiment_analysis.positive_percentage = 0 ∧
    (analyze_items [] [("atomberg", ["atomberg"]),
        ("havells", ["havells"])]).engagement_analysis.total_engagement = 0 ∧
    (analyze_items [] [("atomberg", ["atomberg"]),
        ("havells", ["havells"])]).sov_analysis.mention_based = ⟨0, []⟩ ∧
    (analyze_items [] [("atomberg", ["atomberg"]),
        ("havells", ["havells"])]).sov_analysis.summary.total_brands = 2 := by
  obtain ⟨w1, _, _, _, _, _, _, w8, w9, _, w11, _⟩ :=
    c1_empty_batch_zeroes_and_placeholder ["atomberg"] [("havells", ["havells"])]
      (by decide) (by decide)
  exact ⟨w1, w8, w9, by rw [w11]; rfl⟩

end Atomberg
